import Mathlib

/-!
Verification of the crossword CSP solver (`src/generate.py`).

The core solver lives in `CrosswordCreator`: domain initialization, node
consistency, arc revision, AC-3, the consistency check, the MRV/degree and
least-constraining-value heuristics, backtracking search, and `solve`.

The puzzle-structure class (`crossword.py`: `Variable`, `Crossword.overlaps`,
`Crossword.neighbors`) is imported by `generate.py` but is not part of the
sources; those parts are modelled from the specification (each such
definition's doc comment starts with "Modelled from the spec:").

Python's mutable state is embedded by explicit state passing:
  * `self.domains` becomes a value of type `Domains` threaded through
    `revise`, `ac3` and `backtrack` (every mutation of the Python dict is a
    `Function.update` in the returned state);
  * the `assignment` dict becomes an association list (`Assignment`); the
    code only ever extends a copy (`new_assignment = assignment.copy()`),
    embedded as `ainsert`;
  * Python sets are embedded as lists; the iteration order that Python
    leaves unspecified is fixed by the order of `Crossword.variables`, which
    plays the role of the "fixed tie-break rule" the spec asks
    implementations to pick.
-/

namespace CrosswordCSP

/-- Modelled from the spec: orientation of a slot (`Variable.ACROSS` /
`Variable.DOWN` in the missing `crossword.py`). -/
inductive Direction : Type
  | across : Direction
  | down : Direction
deriving DecidableEq

/-- Modelled from the spec: a slot (the `Variable` class of the missing
`crossword.py`): starting row `i`, starting column `j`, orientation, and
length, with structural equality (slots are used as mapping keys). -/
structure Slot where
  i : Nat
  j : Nat
  direction : Direction
  length : Nat
deriving DecidableEq

/-- A candidate word.  Python strings are embedded as lists of characters. -/
abbrev Word := List Char

/-- Modelled from the spec: the cells occupied by a slot, in order.  The
arithmetic is the one used by `generate.py` (`letter_grid`, lines 29-31):
cell `k` is `(i + k, j)` for a DOWN slot and `(i, j + k)` for an ACROSS
slot. -/
def cells (v : Slot) : List (Nat × Nat) :=
  (List.range v.length).map (fun k =>
    (v.i + (if v.direction = Direction.down then k else 0),
     v.j + (if v.direction = Direction.across then k else 0)))

/-- Modelled from the spec: geometric overlap of two slots.  "For every
unordered pair of slots, compute geometric intersection of their occupied
cells; if exactly one cell is shared, record the index of that cell within
each slot's own coordinate system as the overlap; otherwise record no
overlap." -/
def overlapOf (x y : Slot) : Option (Nat × Nat) :=
  match (cells x).filter (fun p => decide (p ∈ cells y)) with
  | [p] => some ((cells x).findIdx (fun q => decide (q = p)),
                 (cells y).findIdx (fun q => decide (q = p)))
  | _ => none

/-- Modelled from the spec: the static puzzle structure handed to the
solver: the set of slots (as a list, fixing Python's unspecified set
iteration order) and the vocabulary. -/
structure Crossword where
  vars : List Slot
  words : List Word

/-- Modelled from the spec: the overlap table, "mapping every unordered pair
of distinct slots" of the puzzle to an optional pair of offsets.  The table
only has entries for distinct pairs of the puzzle's own slots;
`generate.py`'s `overlaps.get((x, y))` yields `None` for any other pair. -/
def Crossword.overlaps (c : Crossword) (x y : Slot) : Option (Nat × Nat) :=
  if x ∈ c.vars ∧ y ∈ c.vars ∧ x ≠ y then overlapOf x y else none

/-- Modelled from the spec: "Neighbors of a slot = all other slots with a
defined overlap" (`crossword.py`'s `neighbors`, which tests
`v != var and self.overlaps[v, var]`). -/
def Crossword.neighbors (c : Crossword) (v : Slot) : List Slot :=
  c.vars.filter (fun u => decide (u ≠ v) && (c.overlaps u v).isSome)

/-- The Domain Store: `self.domains`, mapping each slot to its remaining
candidate words.  Entries outside `c.vars` are never consulted. -/
abbrev Domains := Slot → List Word

/-- An assignment: the Python dict mapping slots to chosen words, as an
association list in insertion order. -/
abbrev Assignment := List (Slot × Word)

/-- Dict lookup: `assignment[var]` / `var in assignment`. -/
def alookup (a : Assignment) (v : Slot) : Option Word :=
  match a with
  | [] => none
  | (k, w) :: rest => if k = v then some w else alookup rest v

/-- `new_assignment = assignment.copy(); new_assignment[var] = value`
(backtrack, lines 253-254).  The key inserted by `backtrack` is always
fresh, so appending the new binding reproduces the dict's behaviour
(including its insertion order). -/
def ainsert (a : Assignment) (v : Slot) (w : Word) : Assignment :=
  a ++ [(v, w)]

/-- `enforce_node_consistency` (lines 97-109): for each variable, remove
every candidate whose length differs from the variable's length.  The
Python loop runs over the keys of `self.domains`, i.e. over
`crossword.variables`. -/
def enforce_node_consistency (c : Crossword) (D : Domains) : Domains :=
  c.vars.foldl
    (fun E v => Function.update E v
      ((E v).filter (fun w => decide (w.length = v.length)))) D

/-- `revise` (lines 111-132): remove from `x`'s domain every word with no
supporting word in `y`'s domain at the overlap, returning whether anything
was removed together with the updated Domain Store.  Python's
out-of-range string indexing never occurs in the solver's runs; `List.getD`
with a default character totalizes it. -/
def revise (c : Crossword) (D : Domains) (x y : Slot) : Bool × Domains :=
  match c.overlaps x y with
  | none => (false, D)
  | some (i, j) =>
    ((D x).any (fun xv =>
        !((D y).any (fun yv => decide (xv.getD i ' ' = yv.getD j ' ')))),
     Function.update D x
       ((D x).filter (fun xv =>
         (D y).any (fun yv => decide (xv.getD i ' ' = yv.getD j ' ')))))

/-- Total number of candidate words over the puzzle's slots; the measure
that shrinks at every successful revision (AC-3's termination argument,
spec section 4.4). -/
def totalSize (c : Crossword) (D : Domains) : Nat :=
  (c.vars.map (fun v => (D v).length)).sum

lemma overlaps_some_facts {c : Crossword} {x y : Slot} {o : Nat × Nat}
    (h : c.overlaps x y = some o) :
    x ∈ c.vars ∧ y ∈ c.vars ∧ x ≠ y := by
  by_contra hc
  simp only [Crossword.overlaps, if_neg hc] at h
  exact Option.noConfusion h

lemma revise_fst_eq_true {c : Crossword} {D : Domains} {x y : Slot}
    (h : (revise c D x y).1 = true) :
    ∃ i j, c.overlaps x y = some (i, j) ∧
      ∃ xv ∈ D x,
        ((D y).any (fun yv => decide (xv.getD i ' ' = yv.getD j ' '))) = false := by
  unfold revise at h
  cases ho : c.overlaps x y with
  | none => rw [ho] at h; simp at h
  | some o =>
    obtain ⟨i, j⟩ := o
    rw [ho] at h
    simp only [List.any_eq_true, Bool.not_eq_true'] at h
    obtain ⟨xv, hmem, hsup⟩ := h
    exact ⟨i, j, rfl, xv, hmem, hsup⟩

lemma revise_true_totalSize_lt (c : Crossword) (D : Domains) (x y : Slot)
    (h : (revise c D x y).1 = true) :
    totalSize c (revise c D x y).2 < totalSize c D := by
  obtain ⟨i, j, ho, xv, hxv, hsup⟩ := revise_fst_eq_true h
  have hx : x ∈ c.vars := (overlaps_some_facts ho).1
  unfold revise
  rw [ho]
  simp only [totalSize]
  apply List.sum_lt_sum
  · intro v _
    by_cases hv : v = x
    · subst hv
      rw [Function.update_same]
      exact List.length_filter_le _ _
    · rw [Function.update_noteq hv]
  · refine ⟨x, hx, ?_⟩
    rw [Function.update_same]
    exact List.length_filter_lt_length_iff_exists.2
      ⟨xv, hxv, by simp at hsup ⊢; exact hsup⟩

/-- `ac3` (lines 134-158): process the queue of arcs FIFO; on a successful
revision, fail at once if the revised domain is empty, otherwise re-enqueue
`(z, x)` for every neighbor `z` of `x` other than `y`.  The Boolean result
is paired with the final Domain Store (Python mutates `self.domains` in
place).  `revise c D x y` is pure, so mentioning it several times denotes
the single value Python computes once. -/
def ac3 (c : Crossword) (arcs : List (Slot × Slot)) (D : Domains) :
    Bool × Domains :=
  match arcs with
  | [] => (true, D)
  | (x, y) :: rest =>
    if hr : (revise c D x y).1 then
      if (revise c D x y).2 x = [] then (false, (revise c D x y).2)
      else
        ac3 c
          (rest ++ ((c.neighbors x).filter (fun z => decide (z ≠ y))).map
            (fun z => (z, x)))
          (revise c D x y).2
    else ac3 c rest D
termination_by (totalSize c D, arcs.length)
decreasing_by
  · exact Prod.Lex.left _ _ (revise_true_totalSize_lt c D x y hr)
  · exact Prod.Lex.right _ (by simp)

/-- The default arc queue of `ac3(None)` (line 145):
`(x, y) for x in self.domains for y in self.domains if x != y`. -/
def fullArcs (c : Crossword) : List (Slot × Slot) :=
  c.vars.flatMap (fun x =>
    (c.vars.filter (fun y => decide (y ≠ x))).map (fun y => (x, y)))

/-- `assignment_complete` (lines 160-168).  Values stored in an assignment
are words, never Python's `None`, so `var not in assignment or
assignment[var] is None` is exactly "no binding". -/
def assignment_complete (c : Crossword) (a : Assignment) : Bool :=
  c.vars.all (fun v => (alookup a v).isSome)

/-- `consistent` (lines 170-193): all assigned words pairwise distinct
(`len(values) != len(set(values))`), each of the right length, and agreeing
with every assigned neighbor at the overlap. -/
def consistent (c : Crossword) (a : Assignment) : Bool :=
  decide ((a.map Prod.snd).dedup.length = (a.map Prod.snd).length) &&
  a.all (fun p =>
    decide (p.2.length = p.1.length) &&
    (c.neighbors p.1).all (fun n =>
      match alookup a n with
      | none => true
      | some w =>
        match c.overlaps p.1 n with
        | none => true
        | some (i, j) => decide (p.2.getD i ' ' = w.getD j ' ')))

/-- `count_conflicts` inside `order_domain_values` (lines 202-213): over
every unassigned neighbor with a defined overlap, count the neighbor's
candidates that clash with `value` at the overlap. -/
def count_conflicts (c : Crossword) (D : Domains) (a : Assignment)
    (var : Slot) (value : Word) : Nat :=
  (((c.neighbors var).filter (fun n => (alookup a n).isNone)).map (fun n =>
    match c.overlaps var n with
    | none => 0
    | some (i, j) =>
      ((D n).filter (fun nv =>
        decide (¬ value.getD i ' ' = nv.getD j ' '))).length)).sum

/-- `order_domain_values` (lines 195-216): the domain of `var` sorted
ascending by `count_conflicts`.  Python's `sorted` is a deterministic sort
by this key; it is embedded as an insertion sort by the same key. -/
def order_domain_values (c : Crossword) (D : Domains) (var : Slot)
    (a : Assignment) : List Word :=
  (D var).insertionSort
    (fun v w => count_conflicts c D a var v ≤ count_conflicts c D a var w)

/-- The strict comparison on `min`'s key tuples
`(len(domain), -degree)` used by `select_unassigned_variable`. -/
def selectKeyLt (c : Crossword) (D : Domains) (v w : Slot) : Bool :=
  decide ((D v).length < (D w).length) ||
  (decide ((D v).length = (D w).length) &&
   decide ((c.neighbors w).length < (c.neighbors v).length))

/-- Python's `min(..., key=...)`: fold keeping the current best, replacing
it only on a strictly smaller key, so the first minimum wins. -/
def selectMinFrom (c : Crossword) (D : Domains) : Slot → List Slot → Slot
  | best, [] => best
  | best, v :: rest =>
    selectMinFrom c D (if selectKeyLt c D v best then v else best) rest

/-- `select_unassigned_variable` (lines 219-234): the unassigned variable
minimizing `(len(domain), -degree)`.  Python's `min` raises on an empty
sequence; that case is represented by `none` (it is unreachable from
`solve`, because an incomplete assignment always leaves some variable
unassigned). -/
def select_unassigned_variable (c : Crossword) (D : Domains)
    (a : Assignment) : Option Slot :=
  match c.vars.filter (fun v => (alookup a v).isNone) with
  | [] => none
  | u :: us => some (selectMinFrom c D u us)

/-- Number of unassigned variables: the measure that shrinks at every
recursive `backtrack` call. -/
def munassigned (c : Crossword) (a : Assignment) : Nat :=
  (c.vars.filter (fun v => (alookup a v).isNone)).length

lemma selectMinFrom_mem (c : Crossword) (D : Domains) :
    ∀ (l : List Slot) (best : Slot),
      selectMinFrom c D best l = best ∨ selectMinFrom c D best l ∈ l := by
  intro l
  induction l with
  | nil => intro best; left; rfl
  | cons v rest ih =>
    intro best
    simp only [selectMinFrom]
    rcases ih (if selectKeyLt c D v best then v else best) with h | h
    · rw [h]
      by_cases hk : selectKeyLt c D v best
      · rw [if_pos hk]; right; exact List.mem_cons_self _ _
      · rw [if_neg hk]; left; rfl
    · right; exact List.mem_cons_of_mem _ h

lemma select_unassigned_mem {c : Crossword} {D : Domains} {a : Assignment}
    {var : Slot} (h : select_unassigned_variable c D a = some var) :
    var ∈ c.vars ∧ alookup a var = none := by
  unfold select_unassigned_variable at h
  cases hf : c.vars.filter (fun v => (alookup a v).isNone) with
  | nil => rw [hf] at h; exact Option.noConfusion h
  | cons u us =>
    rw [hf] at h
    have hv : var ∈ u :: us := by
      rcases selectMinFrom_mem c D us u with hm | hm
      · rw [Option.some.injEq] at h; rw [← h, hm]; exact List.mem_cons_self _ _
      · rw [Option.some.injEq] at h; rw [← h]; exact List.mem_cons_of_mem _ hm
    have : var ∈ c.vars.filter (fun v => (alookup a v).isNone) := by
      rw [hf]; exact hv
    have := List.mem_filter.1 this
    refine ⟨this.1, ?_⟩
    have := this.2
    simpa [Option.isNone_iff_eq_none] using this

lemma alookup_append (a b : Assignment) (v : Slot) :
    alookup (a ++ b) v =
      match alookup a v with
      | some w => some w
      | none => alookup b v := by
  induction a with
  | nil => simp [alookup]
  | cons p rest ih =>
    obtain ⟨k, w⟩ := p
    by_cases hk : k = v
    · simp [alookup, hk]
    · simp [alookup, hk, ih]

lemma alookup_ainsert_self {a : Assignment} {var : Slot}
    (h : alookup a var = none) (w : Word) :
    alookup (ainsert a var w) var = some w := by
  unfold ainsert
  rw [alookup_append, h]
  simp [alookup]

lemma alookup_ainsert_ne (a : Assignment) (var v : Slot) (w : Word)
    (h : v ≠ var) : alookup (ainsert a var w) v = alookup a v := by
  unfold ainsert
  rw [alookup_append]
  cases hv : alookup a v with
  | some u => rfl
  | none =>
    have hne : ¬ var = v := fun hh => h hh.symm
    simp [alookup, hne]

lemma length_filter_lt_of_banned {α : Type} (l : List α) (p q : α → Bool)
    (hpq : ∀ x ∈ l, q x = true → p x = true)
    (x : α) (hx : x ∈ l) (hpx : p x = true) (hqx : q x = false) :
    (l.filter q).length < (l.filter p).length := by
  induction l with
  | nil => cases hx
  | cons y rest ih =>
    rcases List.mem_cons.1 hx with rfl | hx
    · rw [List.filter_cons, List.filter_cons, hpx, hqx]
      simp only [if_pos rfl]
      have : (rest.filter q).length ≤ (rest.filter p).length := by
        have hsub : rest.filter q = (rest.filter p).filter q := by
          rw [List.filter_filter]
          apply List.filter_congr
          intro z hz
          cases hqz : q z with
          | true => rw [hpq z (List.mem_cons_of_mem _ hz) hqz]; rfl
          | false => simp
        rw [hsub]
        exact List.length_filter_le _ _
      simpa using Nat.lt_succ_of_le this
    · rw [List.filter_cons, List.filter_cons]
      have hrec := ih (fun z hz => hpq z (List.mem_cons_of_mem _ hz)) hx
      cases hq : q y with
      | false =>
        cases hp : p y with
        | false => simpa using hrec
        | true => simp only [if_pos rfl]; exact Nat.lt_succ_of_lt (by simpa using hrec)
      | true =>
        have hp := hpq y (List.mem_cons_self _ _) hq
        rw [hp]
        simpa using hrec

lemma munassigned_ainsert_lt {c : Crossword} {a : Assignment} {var : Slot}
    (hmem : var ∈ c.vars) (hun : alookup a var = none) (w : Word) :
    munassigned c (ainsert a var w) < munassigned c a := by
  unfold munassigned
  apply length_filter_lt_of_banned c.vars
    (fun v => (alookup a v).isNone)
    (fun v => (alookup (ainsert a var w) v).isNone)
  · intro v _ hq
    by_cases hv : v = var
    · subst hv; simp [hun]
    · rw [Option.isNone_iff_eq_none] at hq ⊢
      rw [← alookup_ainsert_ne a var v w hv]
      exact hq
  · exact hmem
  · simp [hun]
  · rw [alookup_ainsert_self hun]
    rfl

mutual

/-- `backtrack` (lines 236-262), threading the Domain Store (Python's
mutable `self.domains`) through the search.  If the assignment is complete
it is returned; otherwise a variable is selected and its ordered candidate
values are tried in turn by `tryValues`.  The `none` branch of the selector
is unreachable from `solve` (Python's `min` would raise there). -/
def backtrack (c : Crossword) (D : Domains) (a : Assignment) :
    Option Assignment × Domains :=
  if assignment_complete c a then (some a, D)
  else
    match hsel : select_unassigned_variable c D a with
    | none => (none, D)
    | some var =>
      tryValues c a var (select_unassigned_mem hsel)
        (order_domain_values c D var a) D
termination_by (munassigned c a, 1, 0)

/-- The `for value in self.order_domain_values(...)` loop of `backtrack`
(lines 251-261): extend a copy of the assignment with the candidate, check
consistency, run AC-3 seeded with the arcs `(var, neighbor)`, and recurse;
Python's `if result:` treats both `None` and the empty dict as failure.
Every mutation of `self.domains` made by the nested `ac3` call persists
into the next iteration (the code takes no snapshot).  `ac3 c ... D` is
pure, so its repeated mention denotes the single value Python computes
once. -/
def tryValues (c : Crossword) (a : Assignment) (var : Slot)
    (hvar : var ∈ c.vars ∧ alookup a var = none) :
    List Word → Domains → Option Assignment × Domains
  | [], D => (none, D)
  | value :: rest, D =>
    if consistent c (ainsert a var value) then
      if (ac3 c ((c.neighbors var).map (fun n => (var, n))) D).1 then
        match backtrack c
            (ac3 c ((c.neighbors var).map (fun n => (var, n))) D).2
            (ainsert a var value) with
        | (some r, D2) =>
          if r.isEmpty then tryValues c a var hvar rest D2 else (some r, D2)
        | (none, D2) => tryValues c a var hvar rest D2
      else
        tryValues c a var hvar rest
          (ac3 c ((c.neighbors var).map (fun n => (var, n))) D).2
    else tryValues c a var hvar rest D
termination_by vs _ => (munassigned c a, 0, vs.length)
decreasing_by
  all_goals simp_wf
  all_goals
    first
      | exact Prod.Lex.left _ _ (munassigned_ainsert_lt hvar.1 hvar.2 value)
      | (apply Prod.Lex.right; apply Prod.Lex.right; omega)

end

/-- `solve` (lines 89-95): node consistency, a full AC-3 pass (whose
Boolean result line 94 discards), then backtracking search from the empty
assignment.  The Domain Store starts as a copy of the vocabulary for every
variable. -/
def solve (c : Crossword) : Option Assignment :=
  (backtrack c
    (ac3 c (fullArcs c)
      (enforce_node_consistency c (fun _ => c.words))).2 []).1

/-- Arc-support: for the overlap (if any) of `x` and `y`, every remaining
candidate of `x` has a compatible candidate in `y`'s current domain. -/
def Support (c : Crossword) (D : Domains) (x y : Slot) : Prop :=
  ∀ i j, c.overlaps x y = some (i, j) →
    ∀ w ∈ D x, ∃ u ∈ D y, w.getD i ' ' = u.getD j ' '

lemma revise_none {c : Crossword} {D : Domains} {x y : Slot}
    (h : c.overlaps x y = none) : revise c D x y = (false, D) := by
  unfold revise; rw [h]

lemma revise_some (c : Crossword) (D : Domains) (x y : Slot) (i j : Nat)
    (h : c.overlaps x y = some (i, j)) :
    revise c D x y =
      ((D x).any (fun xv =>
        !((D y).any (fun yv => decide (xv.getD i ' ' = yv.getD j ' ')))),
       Function.update D x
         ((D x).filter (fun xv =>
           (D y).any (fun yv => decide (xv.getD i ' ' = yv.getD j ' '))))) := by
  unfold revise; rw [h]

lemma revise_snd_ne (c : Crossword) (D : Domains) (x y z : Slot)
    (hz : z ≠ x) : (revise c D x y).2 z = D z := by
  cases ho : c.overlaps x y with
  | none => rw [revise_none ho]
  | some o =>
    obtain ⟨i, j⟩ := o
    rw [revise_some c D x y i j ho]
    exact Function.update_noteq hz _ _

lemma mem_revise_some {c : Crossword} {D : Domains} {x y : Slot} {i j : Nat}
    (h : c.overlaps x y = some (i, j)) (w : Word) :
    w ∈ (revise c D x y).2 x ↔
      w ∈ D x ∧ ∃ u ∈ D y, w.getD i ' ' = u.getD j ' ' := by
  rw [revise_some c D x y i j h]
  show w ∈ Function.update D x _ x ↔ _
  rw [Function.update_same]
  simp [List.mem_filter, List.any_eq_true]

lemma revise_subset {c : Crossword} {D : Domains} {x y : Slot} (z : Slot)
    (w : Word) (h : w ∈ (revise c D x y).2 z) : w ∈ D z := by
  by_cases hz : z = x
  · subst hz
    cases ho : c.overlaps z y with
    | none => rw [revise_none ho] at h; exact h
    | some o =>
      obtain ⟨i, j⟩ := o
      exact ((mem_revise_some ho w).1 h).1
  · rw [revise_snd_ne c D x y z hz] at h; exact h

lemma revise_false_eq {c : Crossword} {D : Domains} {x y : Slot}
    (h : (revise c D x y).1 = false) : (revise c D x y).2 = D := by
  cases ho : c.overlaps x y with
  | none => rw [revise_none ho]
  | some o =>
    obtain ⟨i, j⟩ := o
    rw [revise_some c D x y i j ho] at h ⊢
    show Function.update D x _ = D
    have hall : ∀ xv ∈ D x,
        ((D y).any fun yv => decide (xv.getD i ' ' = yv.getD j ' ')) = true := by
      intro xv hxv
      have h' : ((D x).any (fun xv =>
          !((D y).any (fun yv => decide (xv.getD i ' ' = yv.getD j ' '))))) = false := h
      rw [List.any_eq_false] at h'
      have := h' xv hxv
      simpa using this
    rw [List.filter_eq_self.2 hall]
    exact Function.update_eq_self x D

lemma revise_false_support {c : Crossword} {D : Domains} {x y : Slot}
    (h : (revise c D x y).1 = false) : Support c D x y := by
  intro i j ho w hw
  rw [revise_some c D x y i j ho] at h
  have h' : ((D x).any (fun xv =>
      !((D y).any (fun yv => decide (xv.getD i ' ' = yv.getD j ' '))))) = false := h
  rw [List.any_eq_false] at h'
  have := h' w hw
  simp only [Bool.not_eq_true', Bool.not_eq_false] at this
  rw [List.any_eq_true] at this
  obtain ⟨u, hu, hdec⟩ := this
  exact ⟨u, hu, of_decide_eq_true hdec⟩

lemma revise_support_self {c : Crossword} {D : Domains} {x y : Slot} :
    Support c (revise c D x y).2 x y := by
  intro i j ho w hw
  have hxy := (overlaps_some_facts ho).2.2
  have hyx : (revise c D x y).2 y = D y :=
    revise_snd_ne c D x y y (fun hh => hxy hh.symm)
  rw [hyx]
  exact ((mem_revise_some ho w).1 hw).2

/-! Symmetry of the overlap table (the geometric fact the AC-3 re-enqueue
step relies on: the comment on line 155 of `generate.py`). -/

lemma cells_nodup (v : Slot) : (cells v).Nodup := by
  unfold cells
  apply List.Nodup.map _ (List.nodup_range _)
  intro k1 k2 hk
  simp only [Prod.mk.injEq] at hk
  cases h : v.direction with
  | across => rw [h] at hk; simp at hk; omega
  | down => rw [h] at hk; simp at hk; omega

lemma eq_singleton_of_nodup_mem {α : Type} {l : List α} {p : α}
    (hnd : l.Nodup) (hmem : ∀ a, a ∈ l ↔ a = p) : l = [p] := by
  cases l with
  | nil => exact absurd ((hmem p).2 rfl) (List.not_mem_nil p)
  | cons q t =>
    have hq : q = p := (hmem q).1 (List.mem_cons_self _ _)
    subst hq
    cases t with
    | nil => rfl
    | cons r s =>
      have hr : r = q :=
        (hmem r).1 (List.mem_cons_of_mem _ (List.mem_cons_self _ _))
      subst hr
      simp at hnd

lemma overlapOf_symm {x y : Slot} {i j : Nat}
    (h : overlapOf x y = some (i, j)) : overlapOf y x = some (j, i) := by
  unfold overlapOf at h ⊢
  cases hf : (cells x).filter (fun p => decide (p ∈ cells y)) with
  | nil => rw [hf] at h; exact Option.noConfusion h
  | cons p t =>
    cases t with
    | cons r s => rw [hf] at h; exact Option.noConfusion h
    | nil =>
      rw [hf] at h
      simp only [Option.some.injEq, Prod.mk.injEq] at h
      obtain ⟨hi, hj⟩ := h
      have h1 : ∀ b, b ∈ (cells x).filter (fun q => decide (q ∈ cells y)) ↔ b = p := by
        rw [hf]; intro b; simp
      have hmem2 : ∀ a, a ∈ (cells y).filter (fun q => decide (q ∈ cells x)) ↔ a = p := by
        intro a
        constructor
        · intro ha
          have hmf := List.mem_filter.1 ha
          have hax : a ∈ cells x := by simpa using hmf.2
          exact (h1 a).1 (List.mem_filter.2 ⟨hax, by simpa using hmf.1⟩)
        · intro ha
          subst ha
          have hp := (h1 a).2 rfl
          have hmf := List.mem_filter.1 hp
          exact List.mem_filter.2 ⟨by simpa using hmf.2, by simpa using hmf.1⟩
      have hyx := eq_singleton_of_nodup_mem (List.Nodup.filter _ (cells_nodup y)) hmem2
      rw [hyx]
      show some (List.findIdx (fun q => decide (q = p)) (cells y),
                 List.findIdx (fun q => decide (q = p)) (cells x)) = some (j, i)
      rw [hi, hj]

lemma overlaps_symm {c : Crossword} {x y : Slot} {i j : Nat}
    (h : c.overlaps x y = some (i, j)) : c.overlaps y x = some (j, i) := by
  obtain ⟨hx, hy, hxy⟩ := overlaps_some_facts h
  unfold Crossword.overlaps at h ⊢
  rw [if_pos ⟨hx, hy, hxy⟩] at h
  rw [if_pos ⟨hy, hx, fun hh => hxy hh.symm⟩]
  exact overlapOf_symm h

/-! Unfolding equations of `ac3`, one per control path of the loop. -/

lemma ac3_nil (c : Crossword) (D : Domains) : ac3 c [] D = (true, D) := by
  rw [ac3]

lemma ac3_cons_fail {c : Crossword} {D : Domains} {x y : Slot}
    {rest : List (Slot × Slot)} (hr : (revise c D x y).1 = true)
    (he : (revise c D x y).2 x = []) :
    ac3 c ((x, y) :: rest) D = (false, (revise c D x y).2) := by
  rw [ac3, dif_pos hr, if_pos he]

lemma ac3_cons_step {c : Crossword} {D : Domains} {x y : Slot}
    {rest : List (Slot × Slot)} (hr : (revise c D x y).1 = true)
    (he : ¬ (revise c D x y).2 x = []) :
    ac3 c ((x, y) :: rest) D =
      ac3 c (rest ++ ((c.neighbors x).filter (fun z => decide (z ≠ y))).map
        (fun z => (z, x))) (revise c D x y).2 := by
  rw [ac3, dif_pos hr, if_neg he]

lemma ac3_cons_skip {c : Crossword} {D : Domains} {x y : Slot}
    {rest : List (Slot × Slot)} (hr : ¬ (revise c D x y).1 = true) :
    ac3 c ((x, y) :: rest) D = ac3 c rest D := by
  rw [ac3, dif_neg hr]

/-- AC-3 only ever removes candidates: the final Domain Store is pointwise
a subset of the initial one. -/
lemma ac3_subset (c : Crossword) :
    ∀ (arcs : List (Slot × Slot)) (D : Domains) (v : Slot) (w : Word),
      w ∈ (ac3 c arcs D).2 v → w ∈ D v := by
  intro arcs D
  induction arcs, D using ac3.induct c with
  | case1 D =>
    intro v w h
    rw [ac3_nil] at h
    exact h
  | case2 D x y rest hr he =>
    intro v w h
    rw [ac3_cons_fail hr he] at h
    exact revise_subset v w h
  | case3 D x y rest hr he ih =>
    intro v w h
    rw [ac3_cons_step hr he] at h
    exact revise_subset v w (ih v w h)
  | case4 D x y rest hr ih =>
    intro v w h
    rw [ac3_cons_skip hr] at h
    exact ih v w h

/-- `ac3` returns `true` exactly when no revision emptied a domain: every
slot whose domain is nonempty on entry still has a nonempty domain on
return.  (A slot whose domain was already empty on entry is never noticed:
`revise` removes nothing from an empty domain and so reports no
revision.) -/
lemma ac3_true_iff (c : Crossword) :
    ∀ (arcs : List (Slot × Slot)) (D : Domains),
      ((ac3 c arcs D).1 = true ↔
        ∀ v, D v ≠ [] → (ac3 c arcs D).2 v ≠ []) := by
  intro arcs D
  induction arcs, D using ac3.induct c with
  | case1 D =>
    rw [ac3_nil]
    simp
  | case2 D x y rest hr he =>
    rw [ac3_cons_fail hr he]
    constructor
    · intro h
      exact absurd h (by simp)
    · intro h
      obtain ⟨i, j, ho, xv, hxv, _⟩ := revise_fst_eq_true hr
      have hDx : D x ≠ [] := by
        intro hD
        rw [hD] at hxv
        exact List.not_mem_nil _ hxv
      exact absurd he (h x hDx)
  | case3 D x y rest hr he ih =>
    rw [ac3_cons_step hr he, ih]
    constructor
    · intro H v hD
      by_cases hv : v = x
      · subst hv
        exact H v he
      · rw [← revise_snd_ne c D x y v hv] at hD
        exact H v hD
    · intro H v hR
      apply H v
      intro hD
      obtain ⟨w, hw⟩ := List.exists_mem_of_ne_nil _ hR
      have := revise_subset v w hw
      rw [hD] at this
      exact List.not_mem_nil _ this
  | case4 D x y rest hr ih =>
    rw [ac3_cons_skip hr]
    exact ih

/-- The classical AC-3 invariant: any arc whose support condition might be
broken is in the queue.  If the queue then empties without failure, every
arc of the puzzle is supported. -/
lemma ac3_invariant (c : Crossword) :
    ∀ (arcs : List (Slot × Slot)) (D : Domains),
      (∀ p q, (c.overlaps p q).isSome → (p, q) ∈ arcs ∨ Support c D p q) →
      (ac3 c arcs D).1 = true →
      ∀ p q, Support c (ac3 c arcs D).2 p q := by
  intro arcs D
  induction arcs, D using ac3.induct c with
  | case1 D =>
    intro H _ p q
    rw [ac3_nil]
    intro i j ho w hw
    rcases H p q (by rw [ho]; rfl) with hmem | hsup
    · exact absurd hmem (List.not_mem_nil _)
    · exact hsup i j ho w hw
  | case2 D x y rest hr he =>
    intro H htrue
    rw [ac3_cons_fail hr he] at htrue
    exact absurd htrue (by simp)
  | case3 D x y rest hr he ih =>
    intro H htrue p q
    rw [ac3_cons_step hr he] at htrue ⊢
    apply ih _ htrue
    intro p q hpq
    rcases H p q hpq with hmem | hsup
    · rcases List.mem_cons.1 hmem with heq | hmem'
      · right
        rw [Prod.mk.injEq] at heq
        obtain ⟨rfl, rfl⟩ := heq
        exact revise_support_self
      · left
        exact List.mem_append_left _ hmem'
    · by_cases hqx : q = x
      · by_cases hpy : p = y
        · -- the arc (y, x) just after revising (x, y): the values removed
          -- from x's domain supported no word of y's domain, so every
          -- previous supporter survives (this uses overlap symmetry).
          right
          intro i j ho w hw
          have hpx : p ≠ x := fun hh =>
            (overlaps_some_facts ho).2.2 (hh.trans hqx.symm)
          rw [revise_snd_ne c D x y p hpx] at hw
          obtain ⟨u, hu, hg⟩ := hsup i j ho w hw
          have hyx : c.overlaps y x = some (i, j) := by
            rw [← hpy, ← hqx]
            exact ho
          have hxy' : c.overlaps x y = some (j, i) := overlaps_symm hyx
          rw [hqx] at hu
          rw [hpy] at hw
          refine ⟨u, ?_, hg⟩
          rw [hqx, mem_revise_some hxy' u]
          exact ⟨hu, w, hw, hg.symm⟩
        · -- any other arc into x is re-enqueued as (p, x).
          left
          apply List.mem_append_right
          rw [List.mem_map]
          refine ⟨p, ?_, by rw [hqx]⟩
          rw [List.mem_filter]
          obtain ⟨o, ho⟩ := Option.isSome_iff_exists.1 hpq
          rw [hqx] at ho
          obtain ⟨hpv, hxv, hpx⟩ := overlaps_some_facts ho
          constructor
          · unfold Crossword.neighbors
            rw [List.mem_filter]
            refine ⟨hpv, ?_⟩
            simp [hpx, Option.isSome_iff_exists, ho]
          · simp [hpy]
      · -- arcs not pointing into x stay supported: the source domain only
        -- shrank and the target domain is untouched.
        right
        intro i j ho w hw
        have hw' : w ∈ D p := revise_subset p w hw
        obtain ⟨u, hu, hg⟩ := hsup i j ho w hw'
        refine ⟨u, ?_, hg⟩
        rw [revise_snd_ne c D x y q hqx]
        exact hu
  | case4 D x y rest hr ih =>
    intro H htrue p q
    rw [ac3_cons_skip hr] at htrue ⊢
    apply ih _ htrue
    intro p q hpq
    rcases H p q hpq with hmem | hsup
    · rcases List.mem_cons.1 hmem with heq | hmem'
      · right
        rw [Prod.mk.injEq] at heq
        obtain ⟨rfl, rfl⟩ := heq
        exact revise_false_support (Bool.not_eq_true _ ▸ hr)
      · left
        exact hmem'
    · right
      exact hsup

/-- Decidable statement of the arc-consistency invariant over the puzzle's
slots: every candidate of every slot has a supporter in each neighbor. -/
def arcConsistentB (c : Crossword) (D : Domains) : Bool :=
  c.vars.all (fun x => c.vars.all (fun y =>
    match c.overlaps x y with
    | none => true
    | some (i, j) =>
      (D x).all (fun w =>
        (D y).any (fun u => decide (w.getD i ' ' = u.getD j ' ')))))

lemma arcConsistentB_support {c : Crossword} {D : Domains}
    (h : arcConsistentB c D = true) : ∀ x y, Support c D x y := by
  intro x y i j ho w hw
  obtain ⟨hx, hy, _⟩ := overlaps_some_facts ho
  unfold arcConsistentB at h
  rw [List.all_eq_true] at h
  have h1 := h x hx
  rw [List.all_eq_true] at h1
  have h2 := h1 y hy
  simp only [ho] at h2
  rw [List.all_eq_true] at h2
  have h3 := h2 w hw
  rw [List.any_eq_true] at h3
  obtain ⟨u, hu, hdec⟩ := h3
  exact ⟨u, hu, of_decide_eq_true hdec⟩

/-- On a fully supported Domain Store, `revise` removes nothing. -/
lemma revise_noop {c : Crossword} {D : Domains}
    (h : ∀ x y, Support c D x y) (x y : Slot) :
    revise c D x y = (false, D) := by
  cases ho : c.overlaps x y with
  | none => exact revise_none ho
  | some o =>
    obtain ⟨i, j⟩ := o
    rw [revise_some c D x y i j ho]
    have hall : ∀ xv ∈ D x,
        ((D y).any fun yv => decide (xv.getD i ' ' = yv.getD j ' ')) = true := by
      intro xv hxv
      obtain ⟨u, hu, hg⟩ := h x y i j ho xv hxv
      rw [List.any_eq_true]
      exact ⟨u, hu, decide_eq_true hg⟩
    have h1 : ((D x).any (fun xv =>
        !((D y).any fun yv => decide (xv.getD i ' ' = yv.getD j ' ')))) = false := by
      rw [List.any_eq_false]
      intro xv hxv
      rw [hall xv hxv]
      simp
    rw [h1, List.filter_eq_self.2 hall, Function.update_eq_self]

/-- On a fully supported Domain Store, `ac3` drains any queue without
changing anything and reports success. -/
lemma ac3_noop {c : Crossword} {D : Domains}
    (h : ∀ x y, Support c D x y) :
    ∀ arcs, ac3 c arcs D = (true, D) := by
  intro arcs
  induction arcs with
  | nil => exact ac3_nil c D
  | cons arc rest ih =>
    obtain ⟨x, y⟩ := arc
    rw [ac3_cons_skip (by rw [revise_noop h x y]; simp)]
    exact ih

lemma complete_of_munassigned_zero {c : Crossword} {a : Assignment}
    (h : munassigned c a = 0) : assignment_complete c a = true := by
  unfold munassigned at h
  rw [List.length_eq_zero, List.filter_eq_nil_iff] at h
  unfold assignment_complete
  rw [List.all_eq_true]
  intro v hv
  have hnn : ¬ alookup a v = none := by simpa using h v hv
  rw [Option.isSome_iff_ne_none]
  exact hnn

/-! Unfolding equations of `backtrack` and `tryValues`, one per control
path. -/

lemma backtrack_complete {c : Crossword} {D : Domains} {a : Assignment}
    (hcomp : assignment_complete c a = true) :
    backtrack c D a = (some a, D) := by
  rw [backtrack, if_pos hcomp]

lemma backtrack_select_none {c : Crossword} {D : Domains} {a : Assignment}
    (hcomp : ¬ assignment_complete c a = true)
    (hsel : select_unassigned_variable c D a = none) :
    backtrack c D a = (none, D) := by
  rw [backtrack, if_neg hcomp]
  split
  · rfl
  · next var hsel2 => rw [hsel] at hsel2; exact Option.noConfusion hsel2

lemma backtrack_select_some {c : Crossword} {D : Domains} {a : Assignment}
    {var : Slot} (hcomp : ¬ assignment_complete c a = true)
    (hsel : select_unassigned_variable c D a = some var) :
    backtrack c D a =
      tryValues c a var (select_unassigned_mem hsel)
        (order_domain_values c D var a) D := by
  rw [backtrack, if_neg hcomp]
  split
  · next hnone => rw [hsel] at hnone; exact Option.noConfusion hnone
  · next var2 hsel2 =>
    rw [hsel] at hsel2
    obtain rfl : var = var2 := Option.some.inj hsel2
    rfl

lemma tryValues_nil (c : Crossword) (a : Assignment) (var : Slot)
    (hvar : var ∈ c.vars ∧ alookup a var = none) (D : Domains) :
    tryValues c a var hvar [] D = (none, D) :=
  tryValues.eq_1 c a var hvar D

lemma tryValues_cons_incons {c : Crossword} {a : Assignment} {var : Slot}
    {hvar : var ∈ c.vars ∧ alookup a var = none} {value : Word}
    {rest : List Word} {D : Domains}
    (hcons : ¬ consistent c (ainsert a var value) = true) :
    tryValues c a var hvar (value :: rest) D =
      tryValues c a var hvar rest D := by
  rw [tryValues.eq_def]
  dsimp only
  rw [if_neg hcons]

lemma tryValues_cons_acfail {c : Crossword} {a : Assignment} {var : Slot}
    {hvar : var ∈ c.vars ∧ alookup a var = none} {value : Word}
    {rest : List Word} {D : Domains}
    (hcons : consistent c (ainsert a var value) = true)
    (hac : ¬ (ac3 c (List.map (fun n => (var, n)) (c.neighbors var)) D).1 = true) :
    tryValues c a var hvar (value :: rest) D =
      tryValues c a var hvar rest
        (ac3 c (List.map (fun n => (var, n)) (c.neighbors var)) D).2 := by
  rw [tryValues.eq_def]
  dsimp only
  rw [if_pos hcons, if_neg hac]

lemma tryValues_cons_ac {c : Crossword} {a : Assignment} {var : Slot}
    {hvar : var ∈ c.vars ∧ alookup a var = none} {value : Word}
    {rest : List Word} {D : Domains}
    (hcons : consistent c (ainsert a var value) = true)
    (hac : (ac3 c (List.map (fun n => (var, n)) (c.neighbors var)) D).1 = true) :
    tryValues c a var hvar (value :: rest) D =
      match backtrack c
          (ac3 c (List.map (fun n => (var, n)) (c.neighbors var)) D).2
          (ainsert a var value) with
      | (some r, D2) =>
        if List.isEmpty r = true then tryValues c a var hvar rest D2
        else (some r, D2)
      | (none, D2) => tryValues c a var hvar rest D2 := by
  rw [tryValues.eq_def]
  dsimp only
  rw [if_pos hcons, if_pos hac]

lemma alookup_ainsert_mono {a : Assignment} {v : Slot} {w : Word}
    (h : alookup a v = some w) (var : Slot) (u : Word) :
    alookup (ainsert a var u) v = some w := by
  unfold ainsert
  rw [alookup_append, h]

/-- On an arc-consistent Domain Store, `backtrack` returns the store
unchanged: the nested AC-3 calls are no-ops, so nothing is ever pruned and
nothing needs restoring. -/
lemma backtrack_preserves_aux (c : Crossword) (D : Domains)
    (hD : ∀ x y, Support c D x y) :
    ∀ (n : Nat) (a : Assignment), munassigned c a ≤ n →
      (backtrack c D a).2 = D := by
  intro n
  induction n using Nat.strong_induction_on with
  | _ n IH =>
    intro a hle
    by_cases hcomp : assignment_complete c a = true
    · rw [backtrack_complete hcomp]
    · cases hsel : select_unassigned_variable c D a with
      | none => rw [backtrack_select_none hcomp hsel]
      | some var =>
        rw [backtrack_select_some hcomp hsel]
        have hvar := select_unassigned_mem hsel
        have hac := ac3_noop hD (List.map (fun n => (var, n)) (c.neighbors var))
        have hac1 : (ac3 c (List.map (fun n => (var, n)) (c.neighbors var)) D).1
            = true := by rw [hac]
        have hac2 : (ac3 c (List.map (fun n => (var, n)) (c.neighbors var)) D).2
            = D := by rw [hac]
        generalize order_domain_values c D var a = values
        induction values with
        | nil => rw [tryValues_nil]
        | cons value rest ihv =>
          by_cases hcons : consistent c (ainsert a var value) = true
          · rw [tryValues_cons_ac hcons hac1, hac2]
            have hlt : munassigned c (ainsert a var value) < munassigned c a :=
              munassigned_ainsert_lt hvar.1 hvar.2 value
            cases hq : backtrack c D (ainsert a var value) with
            | mk r D2 =>
              have hD2 : D2 = D := by
                have hh := IH (munassigned c (ainsert a var value))
                  (lt_of_lt_of_le hlt hle) (ainsert a var value) le_rfl
                rw [hq] at hh
                exact hh
              cases r with
              | some r0 =>
                dsimp only
                by_cases hemp : List.isEmpty r0 = true
                · rw [if_pos hemp, hD2]
                  exact ihv
                · rw [if_neg hemp]
                  exact hD2
              | none =>
                dsimp only
                rw [hD2]
                exact ihv
          · rw [tryValues_cons_incons hcons]
            exact ihv

/-- Soundness of the search: whatever assignment `backtrack` returns is
complete and consistent, provided the assignment it started from was
consistent (the search extends assignments only after `consistent`
approves them, and only returns assignments that passed
`assignment_complete`). -/
lemma backtrack_sound_aux (c : Crossword) :
    ∀ (n : Nat) (a : Assignment) (D : Domains) (r : Assignment),
      munassigned c a ≤ n → consistent c a = true →
      (backtrack c D a).1 = some r →
      assignment_complete c r = true ∧ consistent c r = true := by
  intro n
  induction n using Nat.strong_induction_on with
  | _ n IH =>
    intro a D r hle hcons hres
    by_cases hcomp : assignment_complete c a = true
    · rw [backtrack_complete hcomp] at hres
      obtain rfl : a = r := Option.some.inj hres
      exact ⟨hcomp, hcons⟩
    · cases hsel : select_unassigned_variable c D a with
      | none =>
        rw [backtrack_select_none hcomp hsel] at hres
        exact Option.noConfusion hres
      | some var =>
        rw [backtrack_select_some hcomp hsel] at hres
        have hvar := select_unassigned_mem hsel
        have main : ∀ (values : List Word) (E : Domains),
            (tryValues c a var (select_unassigned_mem hsel) values E).1 =
              some r →
            assignment_complete c r = true ∧ consistent c r = true := by
          intro values
          induction values with
          | nil =>
            intro E h
            rw [tryValues_nil] at h
            exact Option.noConfusion h
          | cons value rest ihv =>
            intro E h
            by_cases hcons2 : consistent c (ainsert a var value) = true
            · by_cases hac : (ac3 c (List.map (fun n => (var, n))
                  (c.neighbors var)) E).1 = true
              · rw [tryValues_cons_ac hcons2 hac] at h
                cases hq : backtrack c
                    (ac3 c (List.map (fun n => (var, n)) (c.neighbors var)) E).2
                    (ainsert a var value) with
                | mk r2 D2 =>
                  rw [hq] at h
                  cases r2 with
                  | some r0 =>
                    dsimp only at h
                    by_cases hemp : List.isEmpty r0 = true
                    · rw [if_pos hemp] at h
                      exact ihv D2 h
                    · rw [if_neg hemp] at h
                      obtain rfl : r0 = r := Option.some.inj h
                      have hlt : munassigned c (ainsert a var value) <
                          munassigned c a :=
                        munassigned_ainsert_lt hvar.1 hvar.2 value
                      exact IH (munassigned c (ainsert a var value))
                        (lt_of_lt_of_le hlt hle) (ainsert a var value) _ r0
                        le_rfl hcons2 (by rw [hq])
                  | none =>
                    dsimp only at h
                    exact ihv D2 h
              · rw [tryValues_cons_acfail hcons2 hac] at h
                exact ihv _ h
            · rw [tryValues_cons_incons hcons2] at h
              exact ihv E h
        exact main _ D hres

/-- The search never alters the entries of the assignment it was given:
every binding of the input assignment appears unchanged in any returned
assignment (each extension is built with `ainsert` on a copy). -/
lemma backtrack_extends_aux (c : Crossword) :
    ∀ (n : Nat) (a : Assignment) (D : Domains) (r : Assignment),
      munassigned c a ≤ n →
      (backtrack c D a).1 = some r →
      ∀ v w, alookup a v = some w → alookup r v = some w := by
  intro n
  induction n using Nat.strong_induction_on with
  | _ n IH =>
    intro a D r hle hres
    by_cases hcomp : assignment_complete c a = true
    · rw [backtrack_complete hcomp] at hres
      obtain rfl : a = r := Option.some.inj hres
      exact fun v w h => h
    · cases hsel : select_unassigned_variable c D a with
      | none =>
        rw [backtrack_select_none hcomp hsel] at hres
        exact Option.noConfusion hres
      | some var =>
        rw [backtrack_select_some hcomp hsel] at hres
        have hvar := select_unassigned_mem hsel
        have main : ∀ (values : List Word) (E : Domains),
            (tryValues c a var (select_unassigned_mem hsel) values E).1 =
              some r →
            ∀ v w, alookup a v = some w → alookup r v = some w := by
          intro values
          induction values with
          | nil =>
            intro E h
            rw [tryValues_nil] at h
            exact Option.noConfusion h
          | cons value rest ihv =>
            intro E h
            by_cases hcons2 : consistent c (ainsert a var value) = true
            · by_cases hac : (ac3 c (List.map (fun n => (var, n))
                  (c.neighbors var)) E).1 = true
              · rw [tryValues_cons_ac hcons2 hac] at h
                cases hq : backtrack c
                    (ac3 c (List.map (fun n => (var, n)) (c.neighbors var)) E).2
                    (ainsert a var value) with
                | mk r2 D2 =>
                  rw [hq] at h
                  cases r2 with
                  | some r0 =>
                    dsimp only at h
                    by_cases hemp : List.isEmpty r0 = true
                    · rw [if_pos hemp] at h
                      exact ihv D2 h
                    · rw [if_neg hemp] at h
                      obtain rfl : r0 = r := Option.some.inj h
                      have hlt : munassigned c (ainsert a var value) <
                          munassigned c a :=
                        munassigned_ainsert_lt hvar.1 hvar.2 value
                      intro v w hv
                      exact IH (munassigned c (ainsert a var value))
                        (lt_of_lt_of_le hlt hle) (ainsert a var value) _ r0
                        le_rfl (by rw [hq]) v w
                        (alookup_ainsert_mono hv var value)
                  | none =>
                    dsimp only at h
                    exact ihv D2 h
              · rw [tryValues_cons_acfail hcons2 hac] at h
                exact ihv _ h
            · rw [tryValues_cons_incons hcons2] at h
              exact ihv E h
        exact main _ D hres

lemma foldl_update_filter_apply :
    ∀ (l : List Slot) (D : Domains) (v : Slot),
      (l.foldl (fun E u => Function.update E u
        ((E u).filter (fun w => decide (w.length = u.length)))) D) v =
      if v ∈ l then (D v).filter (fun w => decide (w.length = v.length))
      else D v := by
  intro l
  induction l with
  | nil => intro D v; simp
  | cons u t ih =>
    intro D v
    rw [List.foldl_cons, ih]
    by_cases hvt : v ∈ t
    · rw [if_pos hvt, if_pos (List.mem_cons_of_mem u hvt)]
      by_cases hvu : v = u
      · subst hvu
        rw [Function.update_same, List.filter_filter]
        simp only [Bool.and_self]
      · rw [Function.update_noteq hvu]
    · rw [if_neg hvt]
      by_cases hvu : v = u
      · subst hvu
        rw [if_pos (List.mem_cons_self v t), Function.update_same]
      · rw [Function.update_noteq hvu,
          if_neg (by rw [List.mem_cons]; rintro (h | h) <;> [exact hvu h; exact hvt h])]

lemma enforce_node_consistency_apply (c : Crossword) (D : Domains)
    (v : Slot) :
    enforce_node_consistency c D v =
      if v ∈ c.vars then (D v).filter (fun w => decide (w.length = v.length))
      else D v :=
  foldl_update_filter_apply c.vars D v

lemma mem_fullArcs {c : Crossword} {x y : Slot} :
    (x, y) ∈ fullArcs c ↔ x ∈ c.vars ∧ y ∈ c.vars ∧ y ≠ x := by
  unfold fullArcs
  constructor
  · intro h
    rw [List.mem_flatMap] at h
    obtain ⟨a, ha, hmem⟩ := h
    rw [List.mem_map] at hmem
    obtain ⟨b, hb, heq⟩ := hmem
    rw [List.mem_filter] at hb
    rw [Prod.mk.injEq] at heq
    obtain ⟨rfl, rfl⟩ := heq
    exact ⟨ha, hb.1, by simpa using hb.2⟩
  · rintro ⟨hx, hy, hyx⟩
    rw [List.mem_flatMap]
    refine ⟨x, hx, ?_⟩
    rw [List.mem_map]
    exact ⟨y, List.mem_filter.2 ⟨hy, by simp [hyx]⟩, rfl⟩

lemma consistent_nil (c : Crossword) : consistent c [] = true := rfl

lemma consistent_values_nodup {c : Crossword} {a : Assignment}
    (h : consistent c a = true) : (a.map Prod.snd).Nodup := by
  unfold consistent at h
  rw [Bool.and_eq_true] at h
  have hlen := of_decide_eq_true h.1
  exact List.dedup_eq_self.1
    (List.Sublist.eq_of_length (List.dedup_sublist (a.map Prod.snd)) hlen)

/-! Concrete puzzle instances used by the counterexamples and witnesses. -/

/-- A one-letter across slot. -/
def V1 : Slot := ⟨0, 0, Direction.across, 1⟩

/-- A two-letter across slot starting at the origin. -/
def VA2 : Slot := ⟨0, 0, Direction.across, 2⟩

/-- A two-letter down slot starting at the origin; it crosses `VA2` at the
cell `(0, 0)`, i.e. at index `0` of each. -/
def VD2 : Slot := ⟨0, 0, Direction.down, 2⟩

/-- Crossing pair whose only across candidate has no support: trying it
makes the nested AC-3 call of `backtrack` prune the across domain empty. -/
def cC : Crossword := ⟨[VA2, VD2], [['a','b'], ['b','c'], ['b','d']]⟩

/-- Domain store for `cC`. -/
def DC : Domains := fun v =>
  if v = VA2 then [['a','b']]
  else if v = VD2 then [['b','c'], ['b','d']] else []

/-- One slot with an already-empty domain. -/
def cE1 : Crossword := ⟨[V1], []⟩

/-- The empty domain store. -/
def DE1 : Domains := fun _ => []

/-- Crossing pair whose domains are arc-consistent but violate the length
constraint (node consistency was never run). -/
def cMis : Crossword := ⟨[VA2, VD2], [['a','b','c'], ['a','x']]⟩

/-- Domain store for `cMis`: a three-letter word sits in a two-letter
slot, yet every word has a supporter. -/
def DMis : Domains := fun v =>
  if v = VA2 then [['a','b','c']]
  else if v = VD2 then [['a','x']] else []

/-- Crossing pair whose domains have an unsupported word. -/
def cSup : Crossword := ⟨[VA2, VD2], [['a','b'], ['c','d']]⟩

/-- Domain store for `cSup`: `"ab"` has no supporter in `{"cd"}`. -/
def DSup : Domains := fun v =>
  if v = VA2 then [['a','b']]
  else if v = VD2 then [['c','d']] else []

/-- A solvable one-slot puzzle. -/
def cW : Crossword := ⟨[V1], [['a']]⟩

/-- A node-consistent one-slot store for `cW`. -/
def DNC : Domains := fun _ => [['a']]

/-- Crossing pair with compatible words (`"ab"` across, `"ac"` down). -/
def cS : Crossword := ⟨[VA2, VD2], [['a','b'], ['a','c']]⟩

/-- An arc-consistent store for `cS`. -/
def DS0 : Domains := fun v => if v = VA2 then [['a','b']] else [['a','c']]

/-- A puzzle with no slots at all. -/
def cEmpty : Crossword := ⟨[], [['a']]⟩

/-! The claims. -/

/-- C6: after `enforce_node_consistency` runs, for every slot of the
puzzle a word remains in the slot's domain exactly when it was there before
and its length equals the slot's length — so every survivor has the slot's
length, only wrong-length words were removed, and nothing was added. -/
theorem claim6_node_consistency (c : Crossword) (D : Domains) (v : Slot)
    (hv : v ∈ c.vars) (w : Word) :
    w ∈ enforce_node_consistency c D v ↔ w ∈ D v ∧ w.length = v.length := by
  rw [enforce_node_consistency_apply, if_pos hv, List.mem_filter]
  simp

/-- Witness for C6 at a concrete slot and store. -/
theorem claim6_witness :
    VA2 ∈ cC.vars ∧
      (['a','b'] ∈ enforce_node_consistency cC DC VA2 ↔
        ['a','b'] ∈ DC VA2 ∧ (['a','b'] : Word).length = VA2.length) :=
  ⟨by decide, claim6_node_consistency cC DC VA2 (by decide) ['a','b']⟩

/-- C5: for distinct slots `x`, `y`: with no overlap `revise` changes no
domain and reports no revision; with overlap `(i, j)` it keeps exactly the
words of `x` that have a supporter in `y`'s current domain, changes no
domain but `x`'s (in particular never `y`'s), and reports `true` exactly
when at least one word was removed. -/
theorem claim5_revise_spec (c : Crossword) (D : Domains) (x y : Slot)
    (hxy : x ≠ y) :
    (c.overlaps x y = none → revise c D x y = (false, D)) ∧
    (∀ i j, c.overlaps x y = some (i, j) →
      (∀ w, w ∈ (revise c D x y).2 x ↔
        w ∈ D x ∧ ∃ u ∈ D y, w.getD i ' ' = u.getD j ' ') ∧
      (∀ z, z ≠ x → (revise c D x y).2 z = D z) ∧
      ((revise c D x y).1 = true ↔
        ∃ w ∈ D x, w ∉ (revise c D x y).2 x)) := by
  refine ⟨fun h => revise_none h, fun i j ho =>
    ⟨fun w => mem_revise_some ho w,
     fun z hz => revise_snd_ne c D x y z hz, ?_⟩⟩
  constructor
  · intro hr
    obtain ⟨i', j', ho', xv, hxv, hsup⟩ := revise_fst_eq_true hr
    rw [ho] at ho'
    rw [Option.some.injEq, Prod.mk.injEq] at ho'
    obtain ⟨rfl, rfl⟩ := ho'
    refine ⟨xv, hxv, ?_⟩
    rw [mem_revise_some ho xv]
    rintro ⟨-, u, hu, hg⟩
    rw [List.any_eq_false] at hsup
    exact absurd (decide_eq_true hg) (by simpa using hsup u hu)
  · rintro ⟨w, hw, hnot⟩
    by_contra hfalse
    have hsupp := revise_false_support (Bool.not_eq_true _ ▸ hfalse)
    exact hnot ((mem_revise_some ho w).2 ⟨hw, hsupp i j ho w hw⟩)

/-- Witness for C5 at the crossing pair of `cC`. -/
theorem claim5_witness :
    VA2 ≠ VD2 ∧
      ((cC.overlaps VA2 VD2 = none → revise cC DC VA2 VD2 = (false, DC)) ∧
       (∀ i j, cC.overlaps VA2 VD2 = some (i, j) →
         (∀ w, w ∈ (revise cC DC VA2 VD2).2 VA2 ↔
           w ∈ DC VA2 ∧ ∃ u ∈ DC VD2, w.getD i ' ' = u.getD j ' ') ∧
         (∀ z, z ≠ VA2 → (revise cC DC VA2 VD2).2 z = DC z) ∧
         ((revise cC DC VA2 VD2).1 = true ↔
           ∃ w ∈ DC VA2, w ∉ (revise cC DC VA2 VD2).2 VA2))) :=
  ⟨by decide, claim5_revise_spec cC DC VA2 VD2 (by decide)⟩

/-- C7: `revise` is idempotent: revising the same arc again, with no
intervening change to `y`'s domain, removes nothing and returns `false`. -/
theorem claim7_revise_idempotent (c : Crossword) (D : Domains) (x y : Slot)
    (hxy : x ≠ y) :
    revise c ((revise c D x y).2) x y = (false, (revise c D x y).2) := by
  cases ho : c.overlaps x y with
  | none => exact revise_none ho
  | some o =>
    obtain ⟨i, j⟩ := o
    have hyx : y ≠ x := fun hh => hxy hh.symm
    have hDy : (revise c D x y).2 y = D y := revise_snd_ne c D x y y hyx
    have hDx : (revise c D x y).2 x = (D x).filter (fun xv =>
        (D y).any (fun yv => decide (xv.getD i ' ' = yv.getD j ' '))) := by
      rw [revise_some c D x y i j ho]
      exact Function.update_same _ _ _
    rw [revise_some c ((revise c D x y).2) x y i j ho]
    have hall : ∀ xv ∈ (revise c D x y).2 x,
        (((revise c D x y).2 y).any fun yv =>
          decide (xv.getD i ' ' = yv.getD j ' ')) = true := by
      intro xv hxv
      rw [hDy]
      rw [hDx] at hxv
      exact (List.mem_filter.1 hxv).2
    have h1 : (((revise c D x y).2 x).any (fun xv =>
        !(((revise c D x y).2 y).any fun yv =>
          decide (xv.getD i ' ' = yv.getD j ' ')))) = false := by
      rw [List.any_eq_false]
      intro xv hxv
      rw [hall xv hxv]
      simp
    rw [h1, List.filter_eq_self.2 hall, Function.update_eq_self]

/-- Witness for C7 at the crossing pair of `cC`. -/
theorem claim7_witness :
    VA2 ≠ VD2 ∧
      revise cC ((revise cC DC VA2 VD2).2) VA2 VD2 =
        (false, (revise cC DC VA2 VD2).2) :=
  ⟨by decide, claim7_revise_idempotent cC DC VA2 VD2 (by decide)⟩

/-- C4 as stated is false: with slot `V1`'s domain empty from the start,
the default arc queue (which is empty for a one-slot puzzle) is processed
to exhaustion and `ac3` returns `true`, yet a slot's domain is left
empty. -/
theorem claim4_counterexample :
    (ac3 cE1 (fullArcs cE1) DE1).1 = true ∧
      ¬ (∀ v ∈ cE1.vars, (ac3 cE1 (fullArcs cE1) DE1).2 v ≠ []) := by
  have hfa : fullArcs cE1 = [] := by decide
  constructor
  · rw [hfa, ac3_nil]
  · intro hall
    exact hall V1 (by decide) (by rw [hfa, ac3_nil]; rfl)

/-- C4 amended: `ac3` returns `true` iff no revision emptied a domain —
equivalently, every slot whose domain was nonempty at entry still has a
nonempty domain on return.  (The moment a revision empties a domain, `ac3`
stops and returns `false` with the store in that state; but a domain that
was empty before the call is never noticed, because revising it removes
nothing.) -/
theorem claim4_ac3_true_iff (c : Crossword) (arcs : List (Slot × Slot))
    (D : Domains) :
    (ac3 c arcs D).1 = true ↔ ∀ v, D v ≠ [] → (ac3 c arcs D).2 v ≠ [] :=
  ac3_true_iff c arcs D

/-- C2 as stated is false, twice over.  Left conjunct: a successful
full-default-queue `ac3` run does not give words lengths matching their
slots (that is `enforce_node_consistency`'s job, which this run skipped):
the three-letter word survives in the two-letter slot.  Right conjunct: a
successful `ac3` call on a partial arc queue (here the empty queue; the
queues `backtrack` passes are equally partial) need not establish the
support invariant: the across word is left with no supporter. -/
theorem claim2_counterexample :
    ((ac3 cMis (fullArcs cMis) DMis).1 = true ∧
      ¬ (∀ x y i j, cMis.overlaps x y = some (i, j) →
          ∀ w ∈ (ac3 cMis (fullArcs cMis) DMis).2 x,
            w.length = x.length ∧
            ∃ u ∈ (ac3 cMis (fullArcs cMis) DMis).2 y,
              w.getD i ' ' = u.getD j ' ')) ∧
    ((ac3 cSup [] DSup).1 = true ∧
      ¬ (∀ x y i j, cSup.overlaps x y = some (i, j) →
          ∀ w ∈ (ac3 cSup [] DSup).2 x,
            w.length = x.length ∧
            ∃ u ∈ (ac3 cSup [] DSup).2 y,
              w.getD i ' ' = u.getD j ' ')) := by
  constructor
  · have hsupp := arcConsistentB_support
      (show arcConsistentB cMis DMis = true by decide)
    have hac := ac3_noop hsupp (fullArcs cMis)
    constructor
    · rw [hac]
    · intro hall
      have h := hall VA2 VD2 0 0 (by decide) ['a','b','c']
        (by rw [hac]; decide)
      exact absurd h.1 (by decide)
  · constructor
    · rw [ac3_nil]
    · intro hall
      have h := hall VA2 VD2 0 0 (by decide) ['a','b'] (by rw [ac3_nil]; decide)
      obtain ⟨-, u, hu, hg⟩ := h
      rw [ac3_nil] at hu
      have hu2 : u ∈ DSup VD2 := hu
      have hDv : DSup VD2 = [['c','d']] := by decide
      rw [hDv, List.mem_singleton] at hu2
      subst hu2
      exact absurd hg (by decide)

/-- C2 amended: after `ac3` succeeds on the full default arc queue,
starting — as `solve` does — from node-consistent domains, the invariant
holds: for every pair of slots with a defined overlap `(i, j)`, every word
remaining in `x`'s domain has `x`'s length and at least one word remaining
in `y`'s domain agreeing at the overlap.  (AC-3 itself never checks
lengths, so the length half is inherited from node consistency; and a call
on a partial queue only preserves, not establishes, the invariant.) -/
theorem claim2_ac3_invariant (c : Crossword) (D : Domains)
    (hnode : ∀ v ∈ c.vars, ∀ w ∈ D v, w.length = v.length)
    (hac : (ac3 c (fullArcs c) D).1 = true) :
    ∀ x y i j, c.overlaps x y = some (i, j) →
      ∀ w ∈ (ac3 c (fullArcs c) D).2 x,
        w.length = x.length ∧
        ∃ u ∈ (ac3 c (fullArcs c) D).2 y, w.getD i ' ' = u.getD j ' ' := by
  have hqueue : ∀ p q, (c.overlaps p q).isSome →
      (p, q) ∈ fullArcs c ∨ Support c D p q := by
    intro p q hpq
    left
    obtain ⟨o, hpo⟩ := Option.isSome_iff_exists.1 hpq
    obtain ⟨hp, hq, hpq'⟩ := overlaps_some_facts hpo
    exact mem_fullArcs.2 ⟨hp, hq, fun hh => hpq' hh.symm⟩
  intro x y i j ho w hw
  obtain ⟨hx, _, _⟩ := overlaps_some_facts ho
  refine ⟨hnode x hx w (ac3_subset c (fullArcs c) D x w hw), ?_⟩
  exact ac3_invariant c (fullArcs c) D hqueue hac x y i j ho w hw

/-- Witness for the amended C2 on the node-consistent one-slot puzzle. -/
theorem claim2_witness :
    (∀ v ∈ cW.vars, ∀ w ∈ DNC v, w.length = v.length) ∧
    (ac3 cW (fullArcs cW) DNC).1 = true ∧
    (∀ x y i j, cW.overlaps x y = some (i, j) →
      ∀ w ∈ (ac3 cW (fullArcs cW) DNC).2 x,
        w.length = x.length ∧
        ∃ u ∈ (ac3 cW (fullArcs cW) DNC).2 y,
          w.getD i ' ' = u.getD j ' ') := by
  have h1 : ∀ v ∈ cW.vars, ∀ w ∈ DNC v, w.length = v.length := by decide
  have h2 : (ac3 cW (fullArcs cW) DNC).1 = true := by
    rw [show fullArcs cW = [] by decide, ac3_nil]
  exact ⟨h1, h2, claim2_ac3_invariant cW DNC h1 h2⟩

/-- C1 as stated is false: `backtrack` takes no Domain-Store snapshot and
restores nothing.  In this run the only candidate of the across slot is
tried, the nested AC-3 call prunes the slot's domain empty and fails, the
candidate is abandoned — and the pruning survives the abandonment and the
return from `backtrack`: the across domain went from one word to none. -/
theorem claim1_counterexample :
    (backtrack cC DC []).2 VA2 ≠ DC VA2 := by
  have hcomp : ¬ assignment_complete cC [] = true := by decide
  have hsel : select_unassigned_variable cC DC [] = some VA2 := by decide
  have hord : order_domain_values cC DC VA2 [] = [['a','b']] := by decide
  have hcons : consistent cC (ainsert [] VA2 ['a','b']) = true := by decide
  have harc : List.map (fun n => (VA2, n)) (cC.neighbors VA2) =
      [(VA2, VD2)] := by decide
  have hrev1 : (revise cC DC VA2 VD2).1 = true := by decide
  have hreve : (revise cC DC VA2 VD2).2 VA2 = [] := by decide
  have hac3 : ac3 cC [(VA2, VD2)] DC = (false, (revise cC DC VA2 VD2).2) :=
    ac3_cons_fail hrev1 hreve
  have hacfail : ¬ (ac3 cC (List.map (fun n => (VA2, n))
      (cC.neighbors VA2)) DC).1 = true := by
    rw [harc, hac3]
    simp
  rw [backtrack_select_some hcomp hsel, hord,
    tryValues_cons_acfail hcons hacfail, harc, hac3, tryValues_nil]
  rw [hreve]
  decide

/-- C1 amended: the code performs no snapshot and no restore — prunes made
by the nested AC-3 calls persist (see the counterexample).  What does hold:
whenever the Domain Store is arc-consistent at entry — which is how
`solve` hands it to `backtrack` whenever the initial full AC-3 pass
succeeds — the nested AC-3 calls prune nothing, so for every slot the
domain after backtracking out of any candidate (indeed after the entire
search) equals the domain before: the store is "restored" only because it
was never modified. -/
theorem claim1_backtrack_domains (c : Crossword) (D : Domains)
    (hD : arcConsistentB c D = true) (a : Assignment) :
    (backtrack c D a).2 = D :=
  backtrack_preserves_aux c D (arcConsistentB_support hD)
    (munassigned c a) a le_rfl

/-- Witness for the amended C1 on an arc-consistent crossing pair. -/
theorem claim1_witness :
    arcConsistentB cS DS0 = true ∧ (backtrack cS DS0 []).2 = DS0 :=
  ⟨by decide, claim1_backtrack_domains cS DS0 (by decide) []⟩

/-- C3: whatever assignment `solve` returns is complete and passes
`consistent` — in particular it assigns pairwise-distinct words, of the
right lengths, agreeing at every overlap of assigned neighbors; and
consequently, when no complete consistent assignment exists, `solve`
returns `none` (being a total function of the embedding, it raises
nothing). -/
theorem claim3_solve_sound (c : Crossword) :
    (∀ a, solve c = some a →
      assignment_complete c a = true ∧ consistent c a = true ∧
        (a.map Prod.snd).Nodup) ∧
    ((∀ a, ¬ (assignment_complete c a = true ∧ consistent c a = true)) →
      solve c = none) := by
  have sound : ∀ a, solve c = some a →
      assignment_complete c a = true ∧ consistent c a = true ∧
        (a.map Prod.snd).Nodup := by
    intro a h
    unfold solve at h
    have hb := backtrack_sound_aux c (munassigned c []) [] _ a le_rfl
      (consistent_nil c) h
    exact ⟨hb.1, hb.2, consistent_values_nodup hb.2⟩
  refine ⟨sound, fun hnone => ?_⟩
  cases hs : solve c with
  | none => rfl
  | some a =>
    have hsound := sound a hs
    exact absurd ⟨hsound.1, hsound.2.1⟩ (hnone a)

/-- Witness for C3: `solve` on the one-slot puzzle returns the assignment
mapping the slot to its only word, certified complete and consistent. -/
theorem claim3_witness :
    solve cW = some [(V1, ['a'])] ∧
      (assignment_complete cW [(V1, ['a'])] = true ∧
       consistent cW [(V1, ['a'])] = true ∧
       (([(V1, ['a'])] : Assignment).map Prod.snd).Nodup) := by
  have hcomp1 : ¬ assignment_complete cW [] = true := by decide
  have hsel1 : select_unassigned_variable cW
      (enforce_node_consistency cW (fun _ => cW.words)) [] = some V1 := by
    decide
  have hord1 : order_domain_values cW
      (enforce_node_consistency cW (fun _ => cW.words)) V1 [] = [['a']] := by
    decide
  have hcons1 : consistent cW (ainsert [] V1 ['a']) = true := by decide
  have harcs : List.map (fun n => (V1, n)) (cW.neighbors V1) =
      ([] : List (Slot × Slot)) := by decide
  have hcomp2 : assignment_complete cW (ainsert [] V1 ['a']) = true := by
    decide
  have hfa : fullArcs cW = [] := by decide
  have hD2 : (ac3 cW (fullArcs cW)
      (enforce_node_consistency cW (fun _ => cW.words))).2 =
      enforce_node_consistency cW (fun _ => cW.words) := by
    rw [hfa, ac3_nil]
  have hacn1 : (ac3 cW (List.map (fun n => (V1, n)) (cW.neighbors V1))
      (enforce_node_consistency cW (fun _ => cW.words))).1 = true := by
    rw [harcs, ac3_nil]
  have hacn2 : (ac3 cW (List.map (fun n => (V1, n)) (cW.neighbors V1))
      (enforce_node_consistency cW (fun _ => cW.words))).2 =
      enforce_node_consistency cW (fun _ => cW.words) := by
    rw [harcs, ac3_nil]
  have hsolve : solve cW = some [(V1, ['a'])] := by
    unfold solve
    rw [hD2, backtrack_select_some hcomp1 hsel1, hord1,
      tryValues_cons_ac hcons1 hacn1, hacn2, backtrack_complete hcomp2]
    rfl
  exact ⟨hsolve, (claim3_solve_sound cW).1 _ hsolve⟩

/-- C8: determinism of `solve`.  The embedding fixes, once and for all,
the iteration orders Python's sets leave unspecified — by the order of
`Crossword.vars` and of the word list (the spec's "fixed tie-break rule")
— and `solve` is then a pure function of the puzzle value, so two runs on
identical structure and vocabulary return the same assignment, or `none`
both times. -/
theorem claim8_solve_deterministic (c1 c2 : Crossword) (h : c1 = c2) :
    solve c1 = solve c2 := by rw [h]

/-- Witness for C8 on the one-slot puzzle. -/
theorem claim8_witness : cW = cW ∧ solve cW = solve cW :=
  ⟨rfl, claim8_solve_deterministic cW cW rfl⟩

/-- C9: `backtrack` never mutates the assignment passed to it.  In the
embedding each tentative extension is `ainsert` on a copy
(`assignment.copy()` followed by a fresh-key insert), which leaves every
other binding's lookup unchanged; and every binding of the caller's
assignment reappears untouched in whatever assignment the search
returns. -/
theorem claim9_backtrack_no_mutation (c : Crossword) (D : Domains)
    (a : Assignment) (r : Assignment)
    (h : (backtrack c D a).1 = some r) :
    (∀ var value v, v ≠ var →
        alookup (ainsert a var value) v = alookup a v) ∧
    (∀ v w, alookup a v = some w → alookup r v = some w) :=
  ⟨fun var value v hv => alookup_ainsert_ne a var v value hv,
   backtrack_extends_aux c (munassigned c a) a D r le_rfl h⟩

/-- Witness for C9 on a completed one-slot search. -/
theorem claim9_witness :
    (backtrack cW (fun _ => cW.words) [(V1, ['a'])]).1 =
        some [(V1, ['a'])] ∧
      ((∀ var value v, v ≠ var →
          alookup (ainsert [(V1, ['a'])] var value) v =
            alookup [(V1, ['a'])] v) ∧
       (∀ v w, alookup [(V1, ['a'])] v = some w →
          alookup [(V1, ['a'])] v = some w)) := by
  have h : (backtrack cW (fun _ => cW.words) [(V1, ['a'])]).1 =
      some [(V1, ['a'])] := by
    rw [backtrack_complete (by decide)]
  exact ⟨h, claim9_backtrack_no_mutation cW _ _ _ h⟩

/-- C10: on a puzzle with no slots, the empty assignment is already
complete (the completeness check is vacuous), so `backtrack` and hence
`solve` return it as a success — not the `none` no-solution result. -/
theorem claim10_solve_empty (c : Crossword) (h : c.vars = []) :
    solve c = some [] := by
  unfold solve
  rw [backtrack_complete (show assignment_complete c [] = true by
    unfold assignment_complete
    rw [h]
    rfl)]

/-- Witness for C10 on the slotless puzzle. -/
theorem claim10_witness : cEmpty.vars = [] ∧ solve cEmpty = some [] :=
  ⟨rfl, claim10_solve_empty cEmpty rfl⟩

end CrosswordCSP
